import Mathlib

/-! Verification of the VestibularScoper nystagmus signal-processing core
(`app/core/algorithm/signal.py`, `app/core/algorithm/estimator.py`,
`app/core/camera.py`).

Numpy arrays in the turning-point / classification layer are modelled as index
functions `ℕ → ℚ` together with an explicit length, and floating-point
arithmetic is modelled exactly over `ℚ`.  The only irrational operation in the
analysed code, the square root inside `np.std`, is abstracted as an explicit
function parameter `sqrtQ`.  The scipy library routines the code calls
(`find_peaks`, `_local_maxima_1d`, `_select_by_peak_distance`,
`_peak_prominences`) are embedded following their reference algorithms.
-/

set_option maxRecDepth 20000
set_option linter.unusedVariables false

/-- Middle value of three rationals, which is what `np.median` returns on a
three-element window. -/
def median3 (a b c : ℚ) : ℚ := max (min a b) (min (max a b) c)

/-- Arithmetic mean (`np.mean`); `0` on the empty list (never hit by the code). -/
def qmean (l : List ℚ) : ℚ := l.sum / l.length

/-- Population variance, i.e. `np.std` squared: mean squared deviation from the
mean. -/
def qvariance (l : List ℚ) : ℚ := qmean (l.map (fun v => (v - qmean l) ^ 2))

/-- `np.linspace a b num` (with endpoint): `num` uniformly spaced samples
running from `a` to `b`. -/
def linspace (a b : ℚ) (num : ℕ) : List ℚ :=
  if num = 1 then [a]
  else (List.range num).map (fun i : ℕ => a + (i : ℚ) * ((b - a) / ((num : ℚ) - 1)))

/-- Inner while loop of scipy `_local_maxima_1d`: first index `j ≥ i` with
`¬ (j < iMax ∧ x j = xi)`, i.e. the end of the plateau of value `xi`.
`fuel ≥ iMax` makes the recursion total without changing the result. -/
def plateauEnd (x : ℕ → ℚ) (iMax : ℕ) (xi : ℚ) : ℕ → ℕ → ℕ
  | 0, i => i
  | fuel + 1, i => if i < iMax ∧ x i = xi then plateauEnd x iMax xi fuel (i + 1) else i

/-- Outer loop of scipy `_local_maxima_1d`: starting from index `i`, emit the
midpoint `(left_edge + right_edge) / 2` of every maximal plateau that rises on
the left and falls on the right, resuming after the plateau. -/
def localMaximaGo (x : ℕ → ℚ) (iMax : ℕ) : ℕ → ℕ → List ℕ
  | 0, _ => []
  | fuel + 1, i =>
    if i < iMax then
      if x (i - 1) < x i then
        let ia := plateauEnd x iMax (x i) iMax (i + 1)
        if x ia < x i then (i + ia - 1) / 2 :: localMaximaGo x iMax fuel (ia + 1)
        else localMaximaGo x iMax fuel (i + 1)
      else localMaximaGo x iMax fuel (i + 1)
    else []

/-- scipy `_local_maxima_1d`: midpoints of the strict local maxima (plateaus
included) of `x` on `[0, n)`; boundary samples never qualify. -/
def localMaxima (x : ℕ → ℚ) (n : ℕ) : List ℕ := localMaximaGo x (n - 1) n 1

/-- Left arm of the main loop of scipy `_select_by_peak_distance`: walking left
from `k`, clear the keep flag while the position difference stays below `d`. -/
def killLeft (p : List ℕ) (d pj : ℤ) : ℕ → List Bool → List Bool
  | k, keep =>
    if pj - (p.getD k 0 : ℤ) < d then
      match k with
      | 0 => keep.set 0 false
      | k' + 1 => killLeft p d pj k' (keep.set (k' + 1) false)
    else keep

/-- Right arm of the main loop of scipy `_select_by_peak_distance`. -/
def killRight (p : List ℕ) (d pj : ℤ) : ℕ → ℕ → List Bool → List Bool
  | 0, _, keep => keep
  | fuel + 1, k, keep =>
    if k < p.length ∧ (p.getD k 0 : ℤ) - pj < d then
      killRight p d pj fuel (k + 1) (keep.set k false)
    else keep

/-- One iteration of the main loop of scipy `_select_by_peak_distance`:
process priority position `j`, skipping it if already cleared. -/
def processPeak (p : List ℕ) (d : ℤ) (j : ℕ) (keep : List Bool) : List Bool :=
  if keep.getD j false = false then keep
  else
    killRight p d (p.getD j 0 : ℤ) p.length (j + 1)
      (match j with
       | 0 => keep
       | j' + 1 => killLeft p d (p.getD j 0 : ℤ) j' keep)

/-- Main loop of scipy `_select_by_peak_distance` over the (already reversed)
priority order. -/
def processPrios (p : List ℕ) (d : ℤ) : List ℕ → List Bool → List Bool
  | [], keep => keep
  | j :: rest, keep => processPrios p d rest (processPeak p d j keep)

/-- scipy `_select_by_peak_distance`: keep-mask left after removing every peak
that lies closer than `d` to a kept higher peak, visiting peaks from the
highest to the lowest; `np.argsort` of the heights is modelled by a stable
insertion sort. -/
def selectByPeakDistance (p : List ℕ) (heights : List ℚ) (d : ℤ) : List Bool :=
  let priority :=
    List.insertionSort (fun a b => heights.getD a 0 ≤ heights.getD b 0) (List.range p.length)
  processPrios p d priority.reverse (List.replicate p.length true)

/-- Filter a list through a boolean keep-mask (`peaks[keep]` in numpy). -/
def maskFilter {α : Type} : List α → List Bool → List α
  | [], _ => []
  | _ :: _, [] => []
  | a :: l, b :: m => if b then a :: maskFilter l m else maskFilter l m

/-- Left scan of scipy `_peak_prominences`: walking left from `i` while
`x · ≤ xp`, the running minimum of the visited samples (seeded with `cur`). -/
def leftMinScan (x : ℕ → ℚ) (xp : ℚ) : ℕ → ℚ → ℚ
  | i, cur =>
    if x i ≤ xp then
      match i with
      | 0 => min cur (x 0)
      | i' + 1 => leftMinScan x xp i' (min cur (x (i' + 1)))
    else cur

/-- Right scan of scipy `_peak_prominences`, bounded by `iMax`. -/
def rightMinScan (x : ℕ → ℚ) (xp : ℚ) (iMax : ℕ) : ℕ → ℕ → ℚ → ℚ
  | 0, _, cur => cur
  | fuel + 1, i, cur =>
    if i ≤ iMax ∧ x i ≤ xp then rightMinScan x xp iMax fuel (i + 1) (min cur (x i)) else cur

/-- scipy `_peak_prominences` with the full window: prominence of the peak at
index `i` of the signal `x` of length `n`. -/
def prominenceAt (x : ℕ → ℚ) (n : ℕ) (i : ℕ) : ℚ :=
  x i - max (leftMinScan x (x i) i (x i)) (rightMinScan x (x i) (n - 1) n i (x i))

/-- scipy `find_peaks(x, prominence=…, distance=…)` restricted to the options
the analysed code passes: candidate local maxima, then the distance filter,
then the prominence filter (`pmin ≤ prominence`, no upper bound). -/
def find_peaks (x : ℕ → ℚ) (n : ℕ) (prominence distance : ℚ) : List ℕ :=
  let cands := localMaxima x n
  let kept := maskFilter cands (selectByPeakDistance cands (cands.map x) ⌈distance⌉)
  maskFilter kept ((kept.map (prominenceAt x n)).map (fun pr => decide (prominence ≤ pr)))

/-- `np.sort` on an index array. -/
def sortNat (l : List ℕ) : List ℕ := List.insertionSort (· ≤ ·) l

/-- `find_turning_points` from `signal.py`: peaks of the signal and peaks of the
negated signal (= valleys), concatenated and sorted by index. -/
def find_turning_points (signal_data : ℕ → ℚ) (n : ℕ) (prominence distance : ℚ) : List ℕ :=
  sortNat (find_peaks signal_data n prominence distance ++
    find_peaks (fun i => -signal_data i) n prominence distance)

/-- One pattern dictionary appended by `identify_nystagmus_patterns`. -/
structure NPattern where
  index : ℕ
  fast_phase_first : Bool
  fast_time : ℚ
  slow_time : ℚ
  ratio : ℚ
  slow_slope : ℚ
  fast_slope : ℚ
deriving DecidableEq

/-- `calculate_slopes` from `signal.py`: for each consecutive pair of turning
points with positive time difference, the midpoint time and the slope
`Δvalue / Δtime`; pairs with non-positive `Δtime` are skipped. -/
def calculate_slopes (time signal_data : ℕ → ℚ) (turning_points : List ℕ) :
    List ℚ × List ℚ :=
  let valid := (turning_points.zip turning_points.tail).filter
    (fun q => decide (0 < time q.2 - time q.1))
  (valid.map (fun q => (time q.1 + time q.2) / 2),
   valid.map (fun q => (signal_data q.2 - signal_data q.1) / (time q.2 - time q.1)))

/-- The guarded slope lookup of the classification loop:
`slopes[k] if k < len(slopes) else 0`. -/
def loopSlope (slopes : List ℚ) (k : ℕ) : ℚ :=
  if k < slopes.length then slopes.getD k 0 else 0

/-- Body of the pattern-identification loop of `identify_nystagmus_patterns`
for interior turning point `i`: `some pattern` when the triple is appended,
`none` when it is skipped. -/
def patternAt (signal_data time : ℕ → ℚ) (turning_points : List ℕ) (slopes : List ℚ)
    (min_time max_time min_ratio max_ratio : ℚ) (i : ℕ) : Option NPattern :=
  let idx_prev := turning_points.getD (i - 1) 0
  let idx_curr := turning_points.getD i 0
  let idx_next := turning_points.getD (i + 1) 0
  let time_seg1 := time idx_curr - time idx_prev
  let time_seg2 := time idx_next - time idx_curr
  let slope1 := loopSlope slopes (i - 1)
  let slope2 := loopSlope slopes i
  if |slope1| < 1e-6 ∨ |slope2| < 1e-6 then none
  else
    let ratio := |slope1 / slope2|
    let z := if 1 < ratio then (time_seg1, time_seg2, |slope1|, |slope2|, ratio)
             else (time_seg2, time_seg1, |slope2|, |slope1|, 1 / ratio)
    if (min_time ≤ z.1 ∧ z.1 ≤ max_time ∧ min_time ≤ z.2.1 ∧ z.2.1 ≤ max_time) ∧
       (min_ratio ≤ z.2.2.2.2 ∧ z.2.2.2.2 ≤ max_ratio) then
      some ⟨i, decide (1 < ratio), z.1, z.2.1, z.2.2.2.2, z.2.2.2.1, z.2.2.1⟩
    else none

/-- Direction assignment of `identify_nystagmus_patterns` from the signed mean
slow-phase slope. -/
def nystagmusDirection (direction_axis : String) (avg_slow_slope : ℚ) : String :=
  if direction_axis = "horizontal" then (if 0 < avg_slow_slope then "right" else "left")
  else (if 0 < avg_slow_slope then "up" else "down")

/-- Aggregation stage of `identify_nystagmus_patterns`: from the accepted
pattern list compute direction (sign of the mean signed slow-phase slope),
SPV (mean unsigned slow-phase slope) and CV
(`np.std / np.mean × 100` when the mean is positive, else `0`); with no
patterns the neutral result is returned. -/
def aggregateResult (sqrtQ : ℚ → ℚ) (direction_axis : String) (patterns : List NPattern) :
    List NPattern × List NPattern × String × ℚ × ℚ :=
  if patterns = [] then (patterns, patterns, "unknown", 0, 0)
  else
    let slow_slopes := patterns.map
      (fun p => p.slow_slope * (if p.fast_phase_first then 1 else -1))
    let direction := nystagmusDirection direction_axis (qmean slow_slopes)
    let spv_values := patterns.map (fun p => |p.slow_slope|)
    let cv := if 0 < qmean spv_values then
        sqrtQ (qvariance spv_values) / qmean spv_values * 100
      else 0
    (patterns, patterns, direction, qmean spv_values, cv)

/-- `identify_nystagmus_patterns` from `signal.py`.  Returns
`(patterns, filtered_patterns, direction, pattern_spv, cv)` exactly as the
source does (the two pattern lists are the same object there).  `sqrtQ`
abstracts the square root inside `np.std`. -/
def identify_nystagmus_patterns (sqrtQ : ℚ → ℚ) (signal_data time : ℕ → ℚ) (n : ℕ)
    (min_time max_time min_ratio max_ratio : ℚ) (direction_axis : String) :
    List NPattern × List NPattern × String × ℚ × ℚ :=
  let turning_points := find_turning_points signal_data n 0.1 150
  if turning_points.length < 3 then ([], [], "unknown", 0, 0)
  else
    let slopes := (calculate_slopes time signal_data turning_points).2
    aggregateResult sqrtQ direction_axis
      ((List.range' 1 (turning_points.length - 2)).filterMap
        (patternAt signal_data time turning_points slopes min_time max_time min_ratio
          max_ratio))

/-- Slope of the signal between two sample indices, as the spec describes it. -/
def segSlope (signal_data time : ℕ → ℚ) (a b : ℕ) : ℚ :=
  (signal_data b - signal_data a) / (time b - time a)

/-- The per-triple acceptance rule as worded by the spec (§4.6), to be compared
with the loop body `patternAt` of the source: slopes taken directly between the
adjacent turning points, degenerate slopes skipped, `ratio = |s1/s2|` with the
first segment fast when `ratio > 1` and the inverted ratio otherwise, accepted
iff both durations lie in `[min_time, max_time]` and the reported ratio lies in
`[min_ratio, max_ratio]`. -/
def specTripleEvent (signal_data time : ℕ → ℚ) (turning_points : List ℕ)
    (min_time max_time min_ratio max_ratio : ℚ) (i : ℕ) : Option NPattern :=
  let a := turning_points.getD (i - 1) 0
  let b := turning_points.getD i 0
  let c := turning_points.getD (i + 1) 0
  let s1 := segSlope signal_data time a b
  let s2 := segSlope signal_data time b c
  let d1 := time b - time a
  let d2 := time c - time b
  if |s1| < 1e-6 ∨ |s2| < 1e-6 then none
  else
    let ratio := |s1 / s2|
    if 1 < ratio then
      if (min_time ≤ d1 ∧ d1 ≤ max_time) ∧ (min_time ≤ d2 ∧ d2 ≤ max_time) ∧
         (min_ratio ≤ ratio ∧ ratio ≤ max_ratio) then
        some ⟨i, true, d1, d2, ratio, |s2|, |s1|⟩
      else none
    else
      if (min_time ≤ d2 ∧ d2 ≤ max_time) ∧ (min_time ≤ d1 ∧ d1 ≤ max_time) ∧
         (min_ratio ≤ 1 / ratio ∧ 1 / ratio ≤ max_ratio) then
        some ⟨i, false, d2, d1, 1 / ratio, |s1|, |s2|⟩
      else none

/-- `butter_highpass_filter` from `signal.py`.  The zero-phase filtering stage
(`signal.butter` + `signal.filtfilt`, whose coefficients are irrational) is
abstracted as the function parameter `core`; the skip rule
`normal_cutoff ≥ 1 → pass-through` is the source's. -/
def butter_highpass_filter (core : List ℚ → List ℚ) (data : List ℚ) (cutoff fs : ℚ) :
    List ℚ :=
  let nyquist := 0.5 * fs
  let normal_cutoff := cutoff / nyquist
  if 1 ≤ normal_cutoff then data else core data

/-- `butter_lowpass_filter` from `signal.py`, same structure as the high-pass. -/
def butter_lowpass_filter (core : List ℚ → List ℚ) (data : List ℚ) (cutoff fs : ℚ) :
    List ℚ :=
  let nyquist := 0.5 * fs
  let normal_cutoff := cutoff / nyquist
  if 1 ≤ normal_cutoff then data else core data

/-- `signal_preprocess` from `signal.py`: truncate both arrays to the shorter
length, high-pass, low-pass, resample to `len × interpolate_ratio` samples and
regenerate a uniform time axis.  `hpCore`/`lpCore` abstract the two `filtfilt`
stages and `resampleCore` abstracts `scipy.signal.resample` (their length
contracts are stated as hypotheses of the theorems that use them). -/
def signal_preprocess (hpCore lpCore : List ℚ → List ℚ)
    (resampleCore : List ℚ → ℕ → List ℚ) (timestamps eye_angles : List ℚ)
    (hp_cutoff hp_fs lp_cutoff lp_fs : ℚ) (interpolate_ratio : ℕ) : List ℚ × List ℚ :=
  if eye_angles.length = 0 ∨ timestamps.length = 0 then ([], [])
  else
    let min_len := min timestamps.length eye_angles.length
    let ts := timestamps.take min_len
    let ea := eye_angles.take min_len
    let f1 := butter_highpass_filter hpCore ea hp_cutoff hp_fs
    let f2 := butter_lowpass_filter lpCore f1 lp_cutoff lp_fs
    let f3 := resampleCore f2 (ea.length * interpolate_ratio)
    (f3, linspace (ts.getD 0 0) (ts.getD (ts.length - 1) 0) f3.length)

/-- State of `SignalProcessor` from `estimator.py`: the bounded raw-sample
history (a `deque(maxlen=15)`, kept here most-recent-first, so an append is a
cons followed by `take 15`) and the `last_smooth` attribute, which exists only
after the first smoothed sample (`hasattr` modelled by `Option`). -/
structure ProcState where
  history : List (ℚ × ℚ)
  last_smooth : Option (ℚ × ℚ)
deriving DecidableEq

/-- The empty state a freshly constructed `SignalProcessor` starts from. -/
def initProc : ProcState := ⟨[], none⟩

/-- One channel of the smoothing step: `α·m + (1-α)·prev` with `α = 0.3`. -/
def emaStep (m prev : ℚ) : ℚ := 0.3 * m + (1 - 0.3) * prev

/-- `SignalProcessor.process_realtime` from `estimator.py`: append the raw pair
to the history; with fewer than 3 samples return the raw pair; otherwise take
the per-channel median of the last 3 raw samples and exponentially smooth it
against `last_smooth`, seeding `last_smooth` with the median on first use. -/
def process_realtime (s : ProcState) (pitch yaw : ℚ) : (ℚ × ℚ) × ProcState :=
  let h := ((pitch, yaw) :: s.history).take 15
  if h.length < 3 then ((pitch, yaw), ⟨h, s.last_smooth⟩)
  else
    let med := (median3 (h.getD 0 (0, 0)).1 (h.getD 1 (0, 0)).1 (h.getD 2 (0, 0)).1,
                median3 (h.getD 0 (0, 0)).2 (h.getD 1 (0, 0)).2 (h.getD 2 (0, 0)).2)
    let prev := s.last_smooth.getD med
    let sm := (emaStep med.1 prev.1, emaStep med.2 prev.2)
    (sm, ⟨h, some sm⟩)

/-- Feed a list of raw samples through `process_realtime`, collecting outputs. -/
def runProcessor : ProcState → List (ℚ × ℚ) → List (ℚ × ℚ)
  | _, [] => []
  | s, v :: rest =>
    let r := process_realtime s v.1 v.2
    r.1 :: runProcessor r.2 rest

/-- Feed a list of raw samples through `process_realtime`, keeping the final
state. -/
def runProcessorState : ProcState → List (ℚ × ℚ) → ProcState
  | s, [] => s
  | s, v :: rest => runProcessorState (process_realtime s v.1 v.2).2 rest

/-- Per-channel median of raw samples `i, i-1, i-2` of the input list, as the
spec words it ("median of the last 3 raw values per channel"). -/
def medAt (l : List (ℚ × ℚ)) (i : ℕ) : ℚ × ℚ :=
  (median3 (l.getD i (0, 0)).1 (l.getD (i - 1) (0, 0)).1 (l.getD (i - 2) (0, 0)).1,
   median3 (l.getD i (0, 0)).2 (l.getD (i - 1) (0, 0)).2 (l.getD (i - 2) (0, 0)).2)

/-- The seeded EMA sequence of the spec: `specY l k` is the output of call
`k + 3` (1-based), i.e. `y[3] = median[3]` and
`y[n] = 0.3·median[n] + 0.7·y[n-1]`. -/
def specY (l : List (ℚ × ℚ)) : ℕ → ℚ × ℚ
  | 0 => medAt l 2
  | k + 1 => ((emaStep (medAt l (k + 3)).1 (specY l k).1),
              (emaStep (medAt l (k + 3)).2 (specY l k).2))

/-- The slice of `CameraThread` state (from `camera.py`) relevant to the online
filter: whether the two loops run, the recording path handed to the data
recorder, and the `SignalProcessor` state owned by the thread's `GazeEstimator`.
The `CameraThread` (and hence its estimator and filter) is constructed once per
view and reused across recording sessions. -/
structure CamState where
  capture_running : Bool
  ai_running : Bool
  recorder_path : Option String
  processor : ProcState
deriving DecidableEq

/-- `CameraThread.start` from `camera.py`: starts the capture worker, creates
the data recorder when a save path is given (csv-path derivation elided), and
starts the AI loop.  It does not touch the estimator or its filter state. -/
def CameraThread.start (s : CamState) (save_path : Option String) : CamState :=
  { s with capture_running := true, recorder_path := save_path, ai_running := true }

/-- `CameraThread.stop` from `camera.py`: stops both loops and drops the
recorder; the estimator and its filter state are again untouched. -/
def CameraThread.stop (s : CamState) : CamState :=
  { s with capture_running := false, recorder_path := none, ai_running := false }

/-- Linear interpolation used to build concrete piecewise-linear test signals:
value at index `i` of the segment from `(i0, a)` to `(i1, b)`. -/
def lin (i i0 i1 : ℕ) (a b : ℚ) : ℚ :=
  a + ((i - i0 : ℕ) : ℚ) * ((b - a) / ((i1 - i0 : ℕ) : ℚ))

/-- A concrete 461-sample piecewise-linear signal (indices 0…460).  Its local
maxima at 40, 190 and 340 survive the `distance = 150` and
`prominence = 0.1` filters; every candidate valley is removed (the dips at 100
and 260 by the distance filter, those at 10 and 400 by the prominence filter);
the hump at 430 is removed by the distance filter.  The surviving peak heights
differ by `10⁻⁶`-scale amounts, giving interior-triple slopes of exactly
`2·10⁻⁶` and `10⁻⁶` °/s on the time axis `cTime`. -/
def cSigF (i : ℕ) : ℚ :=
  if i ≤ 10 then lin i 0 10 (1/4) (1/5)
  else if i ≤ 40 then lin i 10 40 (1/5) (1/2)
  else if i ≤ 100 then lin i 40 100 (1/2) (7/20)
  else if i ≤ 190 then lin i 100 190 (7/20) (500001/1000000)
  else if i ≤ 260 then lin i 190 260 (500001/1000000) (17/50)
  else if i ≤ 340 then lin i 260 340 (17/50) (1000003/2000000)
  else if i ≤ 400 then lin i 340 400 (1000003/2000000) (3/20)
  else if i ≤ 430 then lin i 400 430 (3/20) (6/25)
  else lin i 430 460 (6/25) (4/25)

/-- Strictly increasing time axis for `cSigF`: sample `i` at `i/300` seconds,
so the accepted triple's segment durations are exactly `0.5 s`. -/
def cTime (i : ℕ) : ℚ := (i : ℚ) / 300

/-- The single pattern `identify_nystagmus_patterns` accepts on
`(cSigF, cTime)` with the default thresholds. -/
def cEvent : NPattern :=
  ⟨1, true, 1/2, 1/2, 2, 1/1000000, 2/1000000⟩

/-- A 31-sample signal with one peak (index 10) and one valley (index 20) only
40 samples long, exhibiting a peak/valley pair far closer than `distance`. -/
def tinyF (i : ℕ) : ℚ :=
  if i ≤ 10 then lin i 0 10 0 1
  else if i ≤ 20 then lin i 10 20 1 (-1)
  else lin i 20 30 (-1) 0

/-- Square-root stand-in used when evaluating the classifier on concrete
inputs whose slow-slope variance is `0` (so its value is irrelevant). -/
def qsqrt0 : ℚ → ℚ := fun _ => 0

/-- Evaluation of the turning-point detector on the concrete signal `cSigF`. -/
theorem concreteTpsEval : find_turning_points cSigF 461 0.1 150 = [40, 190, 340] := by
  decide!

/-- Evaluation of the full classifier on the concrete signal `cSigF`: exactly
one accepted event, whose slow-phase slope is exactly `10⁻⁶`. -/
theorem concreteIdentifyEval :
    identify_nystagmus_patterns qsqrt0 cSigF cTime 461 0.3 0.8 1.4 8 "horizontal" =
      ([cEvent], [cEvent], "right", 1 / 1000000, 0) := by
  decide!

/-- C2: on any input with fewer than 3 detected turning points,
`identify_nystagmus_patterns` returns immediately with no events, direction
"unknown", SPV 0 and CV 0. -/
theorem C2_few_turning_points_neutral_result (sqrtQ : ℚ → ℚ) (x t : ℕ → ℚ) (n : ℕ)
    (mt Mt mr Mr : ℚ) (ax : String)
    (h : (find_turning_points x n 0.1 150).length < 3) :
    identify_nystagmus_patterns sqrtQ x t n mt Mt mr Mr ax = ([], [], "unknown", 0, 0) := by
  simp only [identify_nystagmus_patterns]
  rw [if_pos h]

/-- Witness for C2 at a concrete degenerate input (the empty signal). -/
theorem C2_few_turning_points_neutral_result_witness :
    (find_turning_points (fun _ => 0) 0 0.1 150).length < 3 ∧
      identify_nystagmus_patterns qsqrt0 (fun _ => 0) (fun _ => 0) 0 0.3 0.8 1.4 8
        "horizontal" = ([], [], "unknown", 0, 0) :=
  ⟨by decide!,
   C2_few_turning_points_neutral_result qsqrt0 (fun _ => 0) (fun _ => 0) 0 0.3 0.8 1.4 8
     "horizontal" (by decide!)⟩

/-- C3: the classification loop body skips any triple whose adjacent slope
magnitudes are not both at least `10⁻⁶`, before the ratio division; hence every
emitted event comes from a triple on which the divisor was at least `10⁻⁶`. -/
theorem C3_degenerate_slope_guard (x t : ℕ → ℚ) (tps : List ℕ) (slopes : List ℚ)
    (mt Mt mr Mr : ℚ) (i : ℕ) :
    (|loopSlope slopes (i - 1)| < 1e-6 ∨ |loopSlope slopes i| < 1e-6 →
      patternAt x t tps slopes mt Mt mr Mr i = none) ∧
    (∀ p, patternAt x t tps slopes mt Mt mr Mr i = some p →
      1e-6 ≤ |loopSlope slopes (i - 1)| ∧ 1e-6 ≤ |loopSlope slopes i|) := by
  constructor
  · intro h
    simp only [patternAt]
    rw [if_pos h]
  · intro p hp
    by_cases h : |loopSlope slopes (i - 1)| < 1e-6 ∨ |loopSlope slopes i| < 1e-6
    · simp only [patternAt] at hp
      rw [if_pos h] at hp
      exact absurd hp (by simp)
    · push_neg at h
      exact h

/-- Witness for C3 at a concrete degenerate triple (empty slope list, so both
looked-up slopes are `0`). -/
theorem C3_degenerate_slope_guard_witness :
    |loopSlope [] 0| < 1e-6 ∧
      patternAt (fun _ => 0) (fun _ => 0) [] [] 0.3 0.8 1.4 8 0 = none :=
  ⟨by decide!,
   (C3_degenerate_slope_guard (fun _ => 0) (fun _ => 0) [] [] 0.3 0.8 1.4 8 0).1
     (Or.inl (by decide!))⟩

/-- Filter state left behind by a previous session that processed the raw
pitch samples `1, 5, 2` (yaw `0`). -/
def usedProcState : ProcState := runProcessorState initProc [(1, 0), (5, 0), (2, 0)]

/-- Counterexample to C8: after `CameraThread.start` on a camera controller
whose filter already holds state from a previous session, the very next
`process_realtime` call does not behave as on first use — a fresh filter
returns the raw input `(3, 0)` unchanged (first call), while the restarted
pipeline returns a smoothed value instead, because `start` carries the
history and last smoothed value over. -/
theorem C8_counterexample :
    (process_realtime
        (CameraThread.start ⟨false, false, none, usedProcState⟩ none).processor 3 0).1 ≠
      (3, 0) ∧
    (process_realtime initProc 3 0).1 = (3, 0) := by
  constructor
  · decide!
  · decide!

/-- C8 (amended): the online filter's state is not reset when a new session
starts — `CameraThread.start` (and `stop`) leave the `SignalProcessor` history
and last smoothed value untouched, so they carry over between sessions for the
lifetime of the `CameraThread`. -/
theorem C8_start_does_not_reset_filter (s : CamState) (save_path : Option String) :
    (CameraThread.start s save_path).processor = s.processor ∧
      (CameraThread.stop s).processor = s.processor :=
  ⟨rfl, rfl⟩

theorem linspace_length (a b : ℚ) (num : ℕ) : (linspace a b num).length = num := by
  unfold linspace
  split
  · simp [*]
  · rw [List.length_map, List.length_range]

theorem linspace_getD (a b : ℚ) (num i : ℕ) (h2 : 2 ≤ num) (hi : i < num) :
    (linspace a b num).getD i 0 = a + i * ((b - a) / ((num : ℚ) - 1)) := by
  unfold linspace
  rw [if_neg (by omega)]
  have hlen : i < ((List.range num).map
      (fun i : ℕ => a + (i : ℚ) * ((b - a) / ((num : ℚ) - 1)))).length := by
    rw [List.length_map, List.length_range]; exact hi
  rw [List.getD_eq_getElem _ _ hlen, List.getElem_map, List.getElem_range]

theorem linspace_getD_zero (a b : ℚ) (num : ℕ) (h1 : 1 ≤ num) :
    (linspace a b num).getD 0 0 = a := by
  by_cases h : num = 1
  · subst h
    simp [linspace]
  · rw [linspace_getD a b num 0 (by omega) (by omega)]
    push_cast
    ring

theorem linspace_getD_last (a b : ℚ) (num : ℕ) (h2 : 2 ≤ num) :
    (linspace a b num).getD (num - 1) 0 = b := by
  rw [linspace_getD a b num (num - 1) h2 (by omega)]
  have hne : ((num : ℚ) - 1) ≠ 0 := by
    have : (2 : ℚ) ≤ (num : ℚ) := by exact_mod_cast h2
    linarith
  have hcast : (((num - 1 : ℕ)) : ℚ) = (num : ℚ) - 1 := by
    push_cast [Nat.cast_sub (by omega : 1 ≤ num)]
    ring
  rw [hcast]
  field_simp

theorem linspace_step (a b : ℚ) (num i : ℕ) (h2 : 2 ≤ num) (hi : i + 1 < num) :
    (linspace a b num).getD (i + 1) 0 - (linspace a b num).getD i 0 =
      (b - a) / ((num : ℚ) - 1) := by
  rw [linspace_getD a b num (i + 1) h2 hi, linspace_getD a b num i h2 (by omega)]
  push_cast
  ring

theorem getD_take_of_lt (l : List ℚ) (m i : ℕ) (h : i < m) :
    (l.take m).getD i 0 = l.getD i 0 := by
  rw [List.getD_eq_getElem?_getD, List.getD_eq_getElem?_getD, List.getElem?_take, if_pos h]

theorem butter_highpass_filter_length (core : List ℚ → List ℚ)
    (Hc : ∀ l, (core l).length = l.length) (data : List ℚ) (c f : ℚ) :
    (butter_highpass_filter core data c f).length = data.length := by
  unfold butter_highpass_filter
  dsimp only
  split
  · rfl
  · exact Hc data

theorem butter_lowpass_filter_length (core : List ℚ → List ℚ)
    (Hc : ∀ l, (core l).length = l.length) (data : List ℚ) (c f : ℚ) :
    (butter_lowpass_filter core data c f).length = data.length := by
  unfold butter_lowpass_filter
  dsimp only
  split
  · rfl
  · exact Hc data

/-- C4: for any filter cores that preserve length (as `filtfilt` does) and any
resampler that returns exactly the requested number of samples (as
`scipy.signal.resample` does), `signal_preprocess` on non-empty inputs returns
a signal of length `min(len(timestamps), len(values)) × interpolate_ratio` and
a uniform time axis spanning the first and last (truncated) timestamps; empty
input gives empty output. -/
theorem C4_conditioner_length_and_span
    (hpCore lpCore : List ℚ → List ℚ) (resampleCore : List ℚ → ℕ → List ℚ)
    (Hhp : ∀ l, (hpCore l).length = l.length)
    (Hlp : ∀ l, (lpCore l).length = l.length)
    (Hrs : ∀ l k, (resampleCore l k).length = k)
    (timestamps eye_angles : List ℚ) (hc hf lc lf : ℚ) (ratio : ℕ) :
    (timestamps = [] ∨ eye_angles = [] →
      signal_preprocess hpCore lpCore resampleCore timestamps eye_angles hc hf lc lf ratio
        = ([], [])) ∧
    (∀ m sig tim, timestamps ≠ [] → eye_angles ≠ [] →
      m = min timestamps.length eye_angles.length →
      (sig, tim) = signal_preprocess hpCore lpCore resampleCore timestamps eye_angles
        hc hf lc lf ratio →
      sig.length = m * ratio ∧
      tim = linspace (timestamps.getD 0 0) (timestamps.getD (m - 1) 0) (m * ratio) ∧
      (1 ≤ m * ratio → tim.getD 0 0 = timestamps.getD 0 0) ∧
      (2 ≤ m * ratio →
        tim.getD (m * ratio - 1) 0 = timestamps.getD (m - 1) 0 ∧
        ∀ i, i + 1 < m * ratio →
          tim.getD (i + 1) 0 - tim.getD i 0 =
            (timestamps.getD (m - 1) 0 - timestamps.getD 0 0) / ((m * ratio : ℚ) - 1))) := by
  constructor
  · intro h
    unfold signal_preprocess
    rw [if_pos]
    rcases h with h | h <;> simp [h]
  · intro m sig tim h1 h2 hm hst
    subst hm
    have hts : 0 < timestamps.length := List.length_pos.2 h1
    have hea : 0 < eye_angles.length := List.length_pos.2 h2
    have htake : (eye_angles.take (min timestamps.length eye_angles.length)).length
        = min timestamps.length eye_angles.length := by
      rw [List.length_take]; omega
    have htslen : (timestamps.take (min timestamps.length eye_angles.length)).length
        = min timestamps.length eye_angles.length := by
      rw [List.length_take]; omega
    have ha : (timestamps.take (min timestamps.length eye_angles.length)).getD 0 0
        = timestamps.getD 0 0 :=
      getD_take_of_lt _ _ _ (by omega)
    have hb : (timestamps.take (min timestamps.length eye_angles.length)).getD
          (min timestamps.length eye_angles.length - 1) 0
        = timestamps.getD (min timestamps.length eye_angles.length - 1) 0 :=
      getD_take_of_lt _ _ _ (by omega)
    simp only [signal_preprocess] at hst
    rw [if_neg (by omega)] at hst
    simp only [Hrs, htake, htslen, ha, hb] at hst
    injection hst with hsig htim
    refine ⟨?_, htim, ?_, ?_⟩
    · rw [hsig, Hrs]
    · intro h1r
      rw [htim]
      exact linspace_getD_zero _ _ _ h1r
    · intro h2r
      refine ⟨?_, ?_⟩
      · rw [htim]
        exact linspace_getD_last _ _ _ h2r
      · intro i hi
        rw [htim, linspace_step _ _ _ _ h2r hi]
        push_cast
        ring

/-- Witness for C4 at a concrete instance: identity filter cores, a
`replicate`-based resampler, a 2-sample time array against a 3-sample value
array (so truncation to length 2 applies) and ratio 10. -/
theorem C4_conditioner_length_and_span_witness :
    (signal_preprocess (fun l => l) (fun l => l) (fun _ k => List.replicate k 0)
        [0, 1] [2, 3, 4] (1/10) 60 6 60 10).1.length = 20 ∧
    (signal_preprocess (fun l => l) (fun l => l) (fun _ k => List.replicate k 0)
        [0, 1] [2, 3, 4] (1/10) 60 6 60 10).2 = linspace 0 1 20 := by
  obtain ⟨hlen, htim, -, -⟩ := (C4_conditioner_length_and_span (fun l => l) (fun l => l)
      (fun _ k => List.replicate k 0) (fun _ => rfl) (fun _ => rfl)
      (fun _ k => List.length_replicate _ _) [0, 1] [2, 3, 4] (1/10) 60 6 60 10).2
      2 (signal_preprocess (fun l => l) (fun l => l) (fun _ k => List.replicate k 0)
        [0, 1] [2, 3, 4] (1/10) 60 6 60 10).1
      (signal_preprocess (fun l => l) (fun l => l) (fun _ k => List.replicate k 0)
        [0, 1] [2, 3, 4] (1/10) 60 6 60 10).2
      (by simp) (by simp) rfl rfl
  constructor
  · simpa using hlen
  · simpa using htim

theorem aggregateResult_fst (sqrtQ : ℚ → ℚ) (ax : String) (patterns : List NPattern) :
    (aggregateResult sqrtQ ax patterns).1 = patterns := by
  unfold aggregateResult
  split
  · rfl
  · rfl

theorem aggregateResult_nonempty (sqrtQ : ℚ → ℚ) (ax : String) (patterns : List NPattern)
    (h : patterns ≠ []) :
    aggregateResult sqrtQ ax patterns =
      (patterns, patterns,
        nystagmusDirection ax (qmean (patterns.map
          (fun p => p.slow_slope * (if p.fast_phase_first then 1 else -1)))),
        qmean (patterns.map (fun p => |p.slow_slope|)),
        if 0 < qmean (patterns.map (fun p => |p.slow_slope|)) then
          sqrtQ (qvariance (patterns.map (fun p => |p.slow_slope|))) /
            qmean (patterns.map (fun p => |p.slow_slope|)) * 100
        else 0) := by
  unfold aggregateResult
  rw [if_neg h]

/-- The event list returned by the classifier: empty with fewer than 3 turning
points, and otherwise the interior-triple loop's accepted patterns. -/
theorem identify_fst (sqrtQ : ℚ → ℚ) (x t : ℕ → ℚ) (n : ℕ) (mt Mt mr Mr : ℚ)
    (ax : String) :
    (identify_nystagmus_patterns sqrtQ x t n mt Mt mr Mr ax).1 =
      if (find_turning_points x n 0.1 150).length < 3 then []
      else (List.range' 1 ((find_turning_points x n 0.1 150).length - 2)).filterMap
        (patternAt x t (find_turning_points x n 0.1 150)
          ((calculate_slopes t x (find_turning_points x n 0.1 150)).2) mt Mt mr Mr) := by
  unfold identify_nystagmus_patterns
  dsimp only
  by_cases h3 : (find_turning_points x n (0.1 : ℚ) 150).length < 3
  · rw [if_pos h3, if_pos h3]
  · rw [if_neg h3, if_neg h3, aggregateResult_fst]

/-- With at least one accepted event the classifier's result is the aggregate
of its own event list. -/
theorem identify_nonempty_eq (sqrtQ : ℚ → ℚ) (x t : ℕ → ℚ) (n : ℕ) (mt Mt mr Mr : ℚ)
    (ax : String)
    (h : (identify_nystagmus_patterns sqrtQ x t n mt Mt mr Mr ax).1 ≠ []) :
    identify_nystagmus_patterns sqrtQ x t n mt Mt mr Mr ax =
      aggregateResult sqrtQ ax (identify_nystagmus_patterns sqrtQ x t n mt Mt mr Mr ax).1 := by
  rw [identify_fst] at h
  unfold identify_nystagmus_patterns
  dsimp only
  by_cases h3 : (find_turning_points x n (0.1 : ℚ) 150).length < 3
  · rw [if_pos h3] at h
    exact absurd rfl h
  · rw [if_neg h3] at h
    rw [if_neg h3, aggregateResult_fst]

/-- C5: over a non-empty accepted event list, SPV is the mean of the unsigned
slow-phase slopes, CV is `std / mean × 100` of those slopes (population std,
via `sqrtQ` of the variance) whenever the mean is positive, and CV is exactly
`0` whenever the mean is `0`. -/
theorem C5_spv_mean_and_cv (sqrtQ : ℚ → ℚ) (x t : ℕ → ℚ) (n : ℕ) (mt Mt mr Mr : ℚ)
    (ax : String) (P : List NPattern)
    (hP : (identify_nystagmus_patterns sqrtQ x t n mt Mt mr Mr ax).1 = P)
    (hne : P ≠ []) :
    (identify_nystagmus_patterns sqrtQ x t n mt Mt mr Mr ax).2.2.2.1 =
      qmean (P.map (fun p => |p.slow_slope|)) ∧
    (identify_nystagmus_patterns sqrtQ x t n mt Mt mr Mr ax).2.2.2.2 =
      (if 0 < qmean (P.map (fun p => |p.slow_slope|)) then
        sqrtQ (qvariance (P.map (fun p => |p.slow_slope|))) /
          qmean (P.map (fun p => |p.slow_slope|)) * 100
      else 0) ∧
    (qmean (P.map (fun p => |p.slow_slope|)) = 0 →
      (identify_nystagmus_patterns sqrtQ x t n mt Mt mr Mr ax).2.2.2.2 = 0) := by
  have he : identify_nystagmus_patterns sqrtQ x t n mt Mt mr Mr ax =
      aggregateResult sqrtQ ax P := by
    rw [identify_nonempty_eq sqrtQ x t n mt Mt mr Mr ax (by rw [hP]; exact hne), hP]
  rw [he, aggregateResult_nonempty _ _ _ hne]
  refine ⟨rfl, rfl, ?_⟩
  intro h0
  dsimp only
  rw [if_neg (by rw [h0]; exact lt_irrefl 0)]

/-- Witness for C5 on the concrete signal `cSigF` (one accepted event). -/
theorem C5_spv_mean_and_cv_witness :
    (identify_nystagmus_patterns qsqrt0 cSigF cTime 461 0.3 0.8 1.4 8
        "horizontal").2.2.2.1 = qmean ([cEvent].map (fun p => |p.slow_slope|)) :=
  (C5_spv_mean_and_cv qsqrt0 cSigF cTime 461 0.3 0.8 1.4 8 "horizontal" [cEvent]
    (by rw [concreteIdentifyEval]) (by simp)).1

/-- C6: with a non-empty accepted event list, the returned direction is the
deterministic function of the signed mean slow-phase slope (positive sign when
the fast phase came first): positive ⇒ "right" on the horizontal axis and
"up" on the vertical axis, otherwise "left" / "down". -/
theorem C6_direction_mapping (sqrtQ : ℚ → ℚ) (x t : ℕ → ℚ) (n : ℕ) (mt Mt mr Mr : ℚ)
    (ax : String) (P : List NPattern)
    (hP : (identify_nystagmus_patterns sqrtQ x t n mt Mt mr Mr ax).1 = P)
    (hne : P ≠ []) :
    (ax = "horizontal" →
      (identify_nystagmus_patterns sqrtQ x t n mt Mt mr Mr ax).2.2.1 =
        if 0 < qmean (P.map (fun p => p.slow_slope * (if p.fast_phase_first then 1 else -1)))
        then "right" else "left") ∧
    (ax = "vertical" →
      (identify_nystagmus_patterns sqrtQ x t n mt Mt mr Mr ax).2.2.1 =
        if 0 < qmean (P.map (fun p => p.slow_slope * (if p.fast_phase_first then 1 else -1)))
        then "up" else "down") := by
  have he : identify_nystagmus_patterns sqrtQ x t n mt Mt mr Mr ax =
      aggregateResult sqrtQ ax P := by
    rw [identify_nonempty_eq sqrtQ x t n mt Mt mr Mr ax (by rw [hP]; exact hne), hP]
  rw [he, aggregateResult_nonempty _ _ _ hne]
  constructor
  · intro hax
    dsimp only [nystagmusDirection]
    rw [if_pos hax]
  · intro hax
    subst hax
    dsimp only [nystagmusDirection]
    rw [if_neg (by simp)]

/-- Witness for C6 on the concrete signal `cSigF` (signed mean slow slope
`+10⁻⁶ > 0`, horizontal axis, direction "right"). -/
theorem C6_direction_mapping_witness :
    (identify_nystagmus_patterns qsqrt0 cSigF cTime 461 0.3 0.8 1.4 8
        "horizontal").2.2.1 =
      if 0 < qmean ([cEvent].map
          (fun p => p.slow_slope * (if p.fast_phase_first then 1 else -1)))
      then "right" else "left" :=
  (C6_direction_mapping qsqrt0 cSigF cTime 461 0.3 0.8 1.4 8 "horizontal" [cEvent]
    (by rw [concreteIdentifyEval]) (by simp)).1 rfl

/-- Every pattern the loop body accepts has `fast_slope ≥ min_ratio·slow_slope`
(in both branches the reported ratio equals `fast_slope / slow_slope`) and a
slow slope of at least `10⁻⁶` (from the degenerate-slope guard). -/
theorem patternAt_some_bounds (x t : ℕ → ℚ) (tps : List ℕ) (slopes : List ℚ)
    (mt Mt mr Mr : ℚ) (i : ℕ) (p : NPattern)
    (hp : patternAt x t tps slopes mt Mt mr Mr i = some p) :
    mr * p.slow_slope ≤ p.fast_slope ∧ (1e-6 : ℚ) ≤ p.slow_slope := by
  simp only [patternAt] at hp
  by_cases hg : |loopSlope slopes (i - 1)| < 1e-6 ∨ |loopSlope slopes i| < 1e-6
  · rw [if_pos hg] at hp
    exact absurd hp (by simp)
  · rw [if_neg hg] at hp
    push_neg at hg
    obtain ⟨hg1, hg2⟩ := hg
    have h1pos : (0 : ℚ) < |loopSlope slopes (i - 1)| := lt_of_lt_of_le (by norm_num) hg1
    have h2pos : (0 : ℚ) < |loopSlope slopes i| := lt_of_lt_of_le (by norm_num) hg2
    by_cases hr : 1 < |loopSlope slopes (i - 1) / loopSlope slopes i|
    · rw [if_pos hr] at hp
      dsimp only at hp
      split at hp
      next hc =>
        injection hp with hp'
        subst hp'
        refine ⟨?_, hg2⟩
        have := hc.2.1
        rw [abs_div] at this
        exact (le_div_iff₀ h2pos).1 this
      next hc => exact absurd hp (by simp)
    · rw [if_neg hr] at hp
      dsimp only at hp
      split at hp
      next hc =>
        injection hp with hp'
        subst hp'
        refine ⟨?_, hg1⟩
        have := hc.2.1
        rw [abs_div, one_div_div] at this
        exact (le_div_iff₀ h1pos).1 this
      next hc => exact absurd hp (by simp)

/-- Every event returned by the classifier satisfies the `patternAt` bounds. -/
theorem identify_mem_bounds (sqrtQ : ℚ → ℚ) (x t : ℕ → ℚ) (n : ℕ) (mt Mt mr Mr : ℚ)
    (ax : String) (p : NPattern)
    (hp : p ∈ (identify_nystagmus_patterns sqrtQ x t n mt Mt mr Mr ax).1) :
    mr * p.slow_slope ≤ p.fast_slope ∧ (1e-6 : ℚ) ≤ p.slow_slope := by
  rw [identify_fst] at hp
  split at hp
  · exact absurd hp (by simp)
  · obtain ⟨a, _, hfa⟩ := List.mem_filterMap.1 hp
    exact patternAt_some_bounds x t _ _ mt Mt mr Mr a p hfa

/-- A non-empty list of rationals all at least `10⁻⁶` has positive mean. -/
theorem qmean_pos_of_bounded (l : List ℚ) (hne : l ≠ [])
    (h : ∀ v ∈ l, (1e-6 : ℚ) ≤ v) : 0 < qmean l := by
  unfold qmean
  apply div_pos
  · exact List.sum_pos l (fun a ha => lt_of_lt_of_le (by norm_num) (h a ha)) hne
  · exact_mod_cast List.length_pos.2 hne

/-- C10 (amended): every event emitted by the classifier satisfies
`fast_slope ≥ min_ratio · slow_slope` and `slow_slope ≥ 10⁻⁶` (the guard is
inclusive, so equality with `10⁻⁶` can occur); consequently, whenever the event
list is non-empty the mean unsigned slow-phase slope is strictly positive and
the CV computation takes the division branch. -/
theorem C10_event_slope_invariants (sqrtQ : ℚ → ℚ) (x t : ℕ → ℚ) (n : ℕ)
    (mt Mt mr Mr : ℚ) (ax : String) (P : List NPattern)
    (hP : (identify_nystagmus_patterns sqrtQ x t n mt Mt mr Mr ax).1 = P) :
    (∀ p ∈ P, mr * p.slow_slope ≤ p.fast_slope ∧ (1e-6 : ℚ) ≤ p.slow_slope) ∧
    (P ≠ [] →
      0 < qmean (P.map (fun p => |p.slow_slope|)) ∧
      (identify_nystagmus_patterns sqrtQ x t n mt Mt mr Mr ax).2.2.2.2 =
        sqrtQ (qvariance (P.map (fun p => |p.slow_slope|))) /
          qmean (P.map (fun p => |p.slow_slope|)) * 100) := by
  have hbounds : ∀ p ∈ P, mr * p.slow_slope ≤ p.fast_slope ∧ (1e-6 : ℚ) ≤ p.slow_slope := by
    intro p hpP
    exact identify_mem_bounds sqrtQ x t n mt Mt mr Mr ax p (hP ▸ hpP)
  refine ⟨hbounds, ?_⟩
  intro hne
  have hpos : 0 < qmean (P.map (fun p => |p.slow_slope|)) := by
    apply qmean_pos_of_bounded
    · simpa using hne
    · intro v hv
      obtain ⟨p, hpP, rfl⟩ := List.mem_map.1 hv
      have h := (hbounds p hpP).2
      calc (1e-6 : ℚ) ≤ p.slow_slope := h
        _ ≤ |p.slow_slope| := le_abs_self _
  refine ⟨hpos, ?_⟩
  have he : identify_nystagmus_patterns sqrtQ x t n mt Mt mr Mr ax =
      aggregateResult sqrtQ ax P := by
    rw [identify_nonempty_eq sqrtQ x t n mt Mt mr Mr ax (by rw [hP]; exact hne), hP]
  rw [he, aggregateResult_nonempty _ _ _ hne]
  dsimp only
  rw [if_pos hpos]

/-- Counterexample to C10 as stated: on the concrete signal `cSigF` the single
emitted event has `slow_slope` exactly `10⁻⁶`, not strictly greater. -/
theorem C10_counterexample :
    cEvent ∈ (identify_nystagmus_patterns qsqrt0 cSigF cTime 461 0.3 0.8 1.4 8
      "horizontal").1 ∧ ¬ ((1e-6 : ℚ) < cEvent.slow_slope) := by
  constructor
  · rw [concreteIdentifyEval]
    exact List.mem_singleton.2 rfl
  · decide!

/-- Witness for C10 (amended) at the concrete event of `cSigF`. -/
theorem C10_event_slope_invariants_witness :
    ((1.4 : ℚ) * cEvent.slow_slope ≤ cEvent.fast_slope ∧
      (1e-6 : ℚ) ≤ cEvent.slow_slope) ∧
    0 < qmean ([cEvent].map (fun p => |p.slow_slope|)) := by
  have h := C10_event_slope_invariants qsqrt0 cSigF cTime 461 0.3 0.8 1.4 8
    "horizontal" [cEvent] (by rw [concreteIdentifyEval])
  exact ⟨h.1 cEvent (List.mem_singleton.2 rfl), (h.2 (by simp)).1⟩

theorem getD_take_any {α : Type} (l : List α) (d : α) (m i : ℕ) (h : i < m) :
    (l.take m).getD i d = l.getD i d := by
  rw [List.getD_eq_getElem?_getD, List.getD_eq_getElem?_getD, List.getElem?_take, if_pos h]

theorem emaStep_self (a : ℚ) : emaStep a a = a := by
  unfold emaStep
  ring

/-- The output the spec prescribes for call `i` (0-based): raw for the first
two calls, the seeded EMA value afterwards. -/
def specOutput (l : List (ℚ × ℚ)) (i : ℕ) : ℚ × ℚ :=
  if i < 2 then l.getD i (0, 0) else specY l (i - 2)

/-- The filter state after the first `k` raw samples of `l` have been
processed: the history holds the (up to 15) most recent samples, and from the
third call on `last_smooth` holds the latest EMA value. -/
def stateAfter (l : List (ℚ × ℚ)) (k : ℕ) : ProcState :=
  ⟨(l.take k).reverse.take 15, if k < 3 then none else some (specY l (k - 3))⟩

theorem take_reverse_succ (l : List (ℚ × ℚ)) (k : ℕ) (hk : k < l.length) :
    (l.take (k + 1)).reverse = l.getD k (0, 0) :: (l.take k).reverse := by
  rw [List.take_succ, List.getElem?_eq_getElem hk, List.getD_eq_getElem l _ hk]
  simp

theorem cons_take15 (v : ℚ × ℚ) (A : List (ℚ × ℚ)) :
    (v :: A).take 15 = v :: A.take 14 := rfl

theorem hist_step (l : List (ℚ × ℚ)) (k : ℕ) (hk : k < l.length) :
    (l.getD k (0, 0) :: (l.take k).reverse.take 15).take 15 =
      (l.take (k + 1)).reverse.take 15 := by
  rw [take_reverse_succ l k hk, cons_take15, cons_take15, List.take_take]
  norm_num

theorem hist_len (l : List (ℚ × ℚ)) (k : ℕ) (hk : k < l.length) :
    ((l.take (k + 1)).reverse.take 15).length = min (k + 1) 15 := by
  rw [List.length_take, List.length_reverse, List.length_take]
  omega

theorem process_step (l : List (ℚ × ℚ)) (k : ℕ) (hk : k < l.length) :
    process_realtime (stateAfter l k) (l.getD k (0, 0)).1 (l.getD k (0, 0)).2 =
      (specOutput l k, stateAfter l (k + 1)) := by
  unfold process_realtime stateAfter specOutput
  dsimp only
  rw [hist_step l k hk, hist_len l k hk]
  by_cases hk2 : k < 2
  · rw [if_pos (by omega : min (k + 1) 15 < 3)]
    rw [if_pos (by omega : k < 3), if_pos (by omega : k + 1 < 3), if_pos hk2]
  · rw [if_neg (by omega : ¬ min (k + 1) 15 < 3)]
    have e1 : (l.take (k + 1)).reverse = l.getD k (0, 0) :: (l.take k).reverse :=
      take_reverse_succ l k hk
    have e2 := take_reverse_succ l (k - 1) (by omega : k - 1 < l.length)
    rw [show k - 1 + 1 = k by omega] at e2
    have e3 := take_reverse_succ l (k - 2) (by omega : k - 2 < l.length)
    rw [show k - 2 + 1 = k - 1 by omega] at e3
    have hg0 : ((l.take (k + 1)).reverse.take 15).getD 0 (0, 0) = l.getD k (0, 0) := by
      rw [e1, e2, e3, cons_take15]
      rfl
    have hg1 : ((l.take (k + 1)).reverse.take 15).getD 1 (0, 0) = l.getD (k - 1) (0, 0) := by
      rw [e1, e2, e3, cons_take15]
      rfl
    have hg2 : ((l.take (k + 1)).reverse.take 15).getD 2 (0, 0) = l.getD (k - 2) (0, 0) := by
      rw [e1, e2, e3, cons_take15]
      rfl
    rw [hg0, hg1, hg2]
    by_cases hk3 : k < 3
    · have hk2' : k = 2 := by omega
      subst hk2'
      rw [if_pos (by omega : (2 : ℕ) < 3), if_neg (by omega : ¬ (2 : ℕ) + 1 < 3),
        if_neg (by omega : ¬ (2 : ℕ) < 2)]
      dsimp only [Option.getD]
      refine congrArg₂ Prod.mk ?_ ?_
      · show (emaStep (median3 _ _ _) (median3 _ _ _), emaStep (median3 _ _ _) (median3 _ _ _))
          = specY l (2 - 2)
        rw [emaStep_self, emaStep_self]
        rfl
      · refine congrArg₂ ProcState.mk rfl ?_
        show some (emaStep (median3 _ _ _) (median3 _ _ _), emaStep (median3 _ _ _) (median3 _ _ _))
          = some (specY l (2 + 1 - 3))
        rw [emaStep_self, emaStep_self]
        rfl
    · rw [if_neg hk3, if_neg (by omega : ¬ k + 1 < 3), if_neg (by omega : ¬ k < 2)]
      dsimp only [Option.getD]
      have hsy : specY l (k - 2) =
          (emaStep (medAt l k).1 (specY l (k - 3)).1,
           emaStep (medAt l k).2 (specY l (k - 3)).2) := by
        rw [show k - 2 = (k - 3) + 1 by omega]
        show ((emaStep (medAt l ((k - 3) + 3)).1 (specY l (k - 3)).1),
              (emaStep (medAt l ((k - 3) + 3)).2 (specY l (k - 3)).2)) = _
        rw [show k - 3 + 3 = k by omega]
      refine congrArg₂ Prod.mk ?_ ?_
      · rw [hsy]
        rfl
      · refine congrArg₂ ProcState.mk rfl ?_
        rw [show k + 1 - 3 = k - 2 by omega, hsy]
        rfl

theorem runProcessor_from (l : List (ℚ × ℚ)) :
    ∀ m k, m = l.length - k →
      runProcessor (stateAfter l k) (l.drop k) = (List.range' k m).map (specOutput l)
  | 0, k, h => by
    have hd : l.drop k = [] := List.drop_eq_nil_of_le (by omega)
    rw [hd]
    rfl
  | m + 1, k, h => by
    have hk : k < l.length := by omega
    have hdrop : l.drop k = l.getD k (0, 0) :: l.drop (k + 1) := by
      rw [List.getD_eq_getElem l _ hk]
      exact List.drop_eq_getElem_cons hk
    rw [hdrop]
    show (process_realtime (stateAfter l k) (l.getD k (0, 0)).1 (l.getD k (0, 0)).2).1 ::
        runProcessor
          (process_realtime (stateAfter l k) (l.getD k (0, 0)).1 (l.getD k (0, 0)).2).2
          (l.drop (k + 1)) =
      (List.range' k (m + 1)).map (specOutput l)
    rw [process_step l k hk]
    rw [runProcessor_from l m (k + 1) (by omega)]
    rfl

/-- C7: fed any raw sample sequence from a fresh state, `process_realtime`
returns the raw pair unchanged on the first two calls, and from the third call
on each channel follows the seeded exponential smoothing
`y[n] = 0.3·median(last 3 raw) + 0.7·y[n-1]`, seeded by the first computed
median (so the third call returns that median itself: `specY l 0 = medAt l 2`). -/
theorem C7_online_filter_outputs (l : List (ℚ × ℚ)) :
    runProcessor initProc l = (List.range l.length).map (specOutput l) := by
  have h := runProcessor_from l l.length 0 (by omega)
  rw [List.drop_zero] at h
  have h0 : stateAfter l 0 = initProc := rfl
  rw [h0] at h
  rw [h, List.range_eq_range']

theorem chain'_zip_tail {α : Type} (R : α → α → Prop) :
    ∀ l : List α, List.Chain' R l → ∀ q ∈ l.zip l.tail, R q.1 q.2
  | [], _, q, hq => absurd hq (by simp)
  | [_], _, q, hq => absurd hq (by simp)
  | a :: b :: rest, h, q, hq => by
    rw [List.chain'_cons] at h
    rw [List.tail_cons, List.zip_cons_cons] at hq
    rcases List.mem_cons.1 hq with hq | hq
    · subst hq
      exact h.1
    · exact chain'_zip_tail R (b :: rest) h.2 q hq

/-- On a time axis that is strictly increasing along the turning points, no
consecutive pair is skipped, so `calculate_slopes` returns one slope per
consecutive pair. -/
theorem calculate_slopes_of_chain (t x : ℕ → ℚ) (tps : List ℕ)
    (h : List.Chain' (fun a b => t a < t b) tps) :
    (calculate_slopes t x tps).2 =
      (tps.zip tps.tail).map (fun q => (x q.2 - x q.1) / (t q.2 - t q.1)) := by
  unfold calculate_slopes
  dsimp only
  have hf : (tps.zip tps.tail).filter (fun q => decide (0 < t q.2 - t q.1)) =
      tps.zip tps.tail := by
    rw [List.filter_eq_self]
    intro q hq
    have := chain'_zip_tail _ tps h q hq
    simp only [decide_eq_true_eq]
    linarith
  rw [hf]

theorem zip_tail_map_getD (tps : List ℕ) (f : ℕ × ℕ → ℚ) (k : ℕ)
    (hk : k + 1 < tps.length) :
    ((tps.zip tps.tail).map f).getD k 0 = f (tps.getD k 0, tps.getD (k + 1) 0) := by
  have hzlen : (tps.zip tps.tail).length = tps.length - 1 := by
    rw [List.length_zip, List.length_tail]
    omega
  have hklen : k < ((tps.zip tps.tail).map f).length := by
    rw [List.length_map, hzlen]
    omega
  rw [List.getD_eq_getElem _ _ hklen, List.getElem_map, List.getElem_zip,
    List.getD_eq_getElem tps _ (by omega : k < tps.length),
    List.getD_eq_getElem tps _ (by omega : k + 1 < tps.length)]
  congr 1
  refine congrArg₂ Prod.mk rfl ?_
  rw [List.getElem_tail]

theorem loopSlope_calculate (t x : ℕ → ℚ) (tps : List ℕ)
    (h : List.Chain' (fun a b => t a < t b) tps) (k : ℕ) (hk : k + 1 < tps.length) :
    loopSlope (calculate_slopes t x tps).2 k =
      segSlope x t (tps.getD k 0) (tps.getD (k + 1) 0) := by
  rw [calculate_slopes_of_chain t x tps h]
  unfold loopSlope
  rw [if_pos (by rw [List.length_map, List.length_zip, List.length_tail]; omega)]
  rw [zip_tail_map_getD tps _ k hk]
  rfl

set_option maxHeartbeats 1600000 in
/-- When the two looked-up slopes are the direct segment slopes, the loop body
and the spec-worded triple rule agree. -/
theorem patternAt_eq_specTriple (x t : ℕ → ℚ) (tps : List ℕ) (slopes : List ℚ)
    (mt Mt mr Mr : ℚ) (i : ℕ)
    (hs1 : loopSlope slopes (i - 1) = segSlope x t (tps.getD (i - 1) 0) (tps.getD i 0))
    (hs2 : loopSlope slopes i = segSlope x t (tps.getD i 0) (tps.getD (i + 1) 0)) :
    patternAt x t tps slopes mt Mt mr Mr i = specTripleEvent x t tps mt Mt mr Mr i := by
  unfold patternAt specTripleEvent
  dsimp only
  rw [hs1, hs2]
  by_cases hg : |segSlope x t (tps.getD (i - 1) 0) (tps.getD i 0)| < 1e-6 ∨
      |segSlope x t (tps.getD i 0) (tps.getD (i + 1) 0)| < 1e-6
  · rw [if_pos hg, if_pos hg]
  · rw [if_neg hg, if_neg hg]
    by_cases hr : 1 < |segSlope x t (tps.getD (i - 1) 0) (tps.getD i 0) /
        segSlope x t (tps.getD i 0) (tps.getD (i + 1) 0)|
    · rw [if_pos hr, decide_eq_true hr]
      dsimp only
      split_ifs with hc1 hc2 <;> first | rfl | tauto
    · rw [if_neg hr, decide_eq_false hr]
      dsimp only
      split_ifs with hc1 hc2 <;> first | rfl | tauto

/-- C1: on a time axis strictly increasing along the detected turning points,
the classifier's event list is exactly the spec's per-triple rule applied to
every interior turning point, with the segment slopes taken directly between
adjacent turning points. -/
theorem C1_triple_acceptance_refines_spec (sqrtQ : ℚ → ℚ) (x t : ℕ → ℚ) (n : ℕ)
    (mt Mt mr Mr : ℚ) (ax : String)
    (hmono : List.Chain' (fun a b => t a < t b) (find_turning_points x n 0.1 150)) :
    (identify_nystagmus_patterns sqrtQ x t n mt Mt mr Mr ax).1 =
      (List.range' 1 ((find_turning_points x n 0.1 150).length - 2)).filterMap
        (specTripleEvent x t (find_turning_points x n 0.1 150) mt Mt mr Mr) := by
  rw [identify_fst]
  by_cases h3 : (find_turning_points x n (0.1 : ℚ) 150).length < 3
  · rw [if_pos h3, show (find_turning_points x n (0.1 : ℚ) 150).length - 2 = 0 by omega]
    rfl
  · rw [if_neg h3]
    apply List.filterMap_congr
    intro i hi
    rw [List.mem_range'_1] at hi
    obtain ⟨hi1, hi2⟩ := hi
    apply patternAt_eq_specTriple
    · have h := loopSlope_calculate t x _ hmono (i - 1) (by omega)
      rw [show i - 1 + 1 = i by omega] at h
      exact h
    · exact loopSlope_calculate t x _ hmono i (by omega)

/-- Witness for C1 on the concrete signal `cSigF` with its strictly increasing
time axis. -/
theorem C1_triple_acceptance_refines_spec_witness :
    (identify_nystagmus_patterns qsqrt0 cSigF cTime 461 0.3 0.8 1.4 8 "horizontal").1 =
      (List.range' 1 ((find_turning_points cSigF 461 0.1 150).length - 2)).filterMap
        (specTripleEvent cSigF cTime (find_turning_points cSigF 461 0.1 150)
          0.3 0.8 1.4 8) :=
  C1_triple_acceptance_refines_spec qsqrt0 cSigF cTime 461 0.3 0.8 1.4 8 "horizontal"
    (by
      rw [concreteTpsEval]
      refine List.chain'_cons.2 ⟨?_, List.chain'_cons.2 ⟨?_, List.chain'_singleton _⟩⟩ <;>
        (show cTime _ < cTime _; unfold cTime; norm_num))

theorem plateauEnd_ge (x : ℕ → ℚ) (iMax : ℕ) (xi : ℚ) :
    ∀ fuel i, i ≤ plateauEnd x iMax xi fuel i
  | 0, i => le_refl i
  | fuel + 1, i => by
    simp only [plateauEnd]
    split
    · exact le_trans (Nat.le_succ i) (plateauEnd_ge x iMax xi fuel (i + 1))
    · exact le_refl i

theorem plateauEnd_le (x : ℕ → ℚ) (iMax : ℕ) (xi : ℚ) :
    ∀ fuel i, i ≤ iMax → plateauEnd x iMax xi fuel i ≤ iMax
  | 0, _, h => h
  | fuel + 1, i, h => by
    simp only [plateauEnd]
    split
    next hc => exact plateauEnd_le x iMax xi fuel (i + 1) (by omega)
    next => exact h

theorem plateauEnd_plateau (x : ℕ → ℚ) (iMax : ℕ) (xi : ℚ) :
    ∀ fuel i k, i ≤ k → k < plateauEnd x iMax xi fuel i → k < iMax ∧ x k = xi
  | 0, i, k, hik, hk => absurd hk (by simp only [plateauEnd]; omega)
  | fuel + 1, i, k, hik, hk => by
    simp only [plateauEnd] at hk
    split at hk
    next hc =>
      by_cases hki : k = i
      · exact hki ▸ hc
      · exact plateauEnd_plateau x iMax xi fuel (i + 1) k (by omega) hk
    next => omega

theorem localMaximaGo_lb (x : ℕ → ℚ) (iMax : ℕ) :
    ∀ fuel i m, m ∈ localMaximaGo x iMax fuel i → i ≤ m
  | 0, i, m, hm => absurd hm (by simp [localMaximaGo])
  | fuel + 1, i, m, hm => by
    simp only [localMaximaGo] at hm
    by_cases h1 : i < iMax
    · rw [if_pos h1] at hm
      by_cases h2 : x (i - 1) < x i
      · rw [if_pos h2] at hm
        by_cases h3 : x (plateauEnd x iMax (x i) iMax (i + 1)) < x i
        · rw [if_pos h3] at hm
          have hge := plateauEnd_ge x iMax (x i) iMax (i + 1)
          rcases List.mem_cons.1 hm with rfl | hm'
          · omega
          · have := localMaximaGo_lb x iMax fuel
              (plateauEnd x iMax (x i) iMax (i + 1) + 1) m hm'
            omega
        · rw [if_neg h3] at hm
          have := localMaximaGo_lb x iMax fuel (i + 1) m hm
          omega
      · rw [if_neg h2] at hm
        have := localMaximaGo_lb x iMax fuel (i + 1) m hm
        omega
    · rw [if_neg h1] at hm
      exact absurd hm (by simp)

theorem localMaximaGo_sorted (x : ℕ → ℚ) (iMax : ℕ) :
    ∀ fuel i, (localMaximaGo x iMax fuel i).Sorted (· < ·)
  | 0, _ => by simp [localMaximaGo]
  | fuel + 1, i => by
    simp only [localMaximaGo]
    by_cases h1 : i < iMax
    · rw [if_pos h1]
      by_cases h2 : x (i - 1) < x i
      · rw [if_pos h2]
        by_cases h3 : x (plateauEnd x iMax (x i) iMax (i + 1)) < x i
        · rw [if_pos h3]
          refine List.sorted_cons.2 ⟨?_, localMaximaGo_sorted x iMax fuel _⟩
          intro b hb
          have hb' := localMaximaGo_lb x iMax fuel
            (plateauEnd x iMax (x i) iMax (i + 1) + 1) b hb
          have hge := plateauEnd_ge x iMax (x i) iMax (i + 1)
          omega
        · rw [if_neg h3]
          exact localMaximaGo_sorted x iMax fuel (i + 1)
      · rw [if_neg h2]
        exact localMaximaGo_sorted x iMax fuel (i + 1)
    · rw [if_neg h1]
      simp

/-- Every midpoint the local-maxima scan emits comes from a maximal plateau
`[l, r]` that strictly rises on the left and strictly falls on the right. -/
theorem localMaximaGo_char (x : ℕ → ℚ) (iMax : ℕ) :
    ∀ fuel i m, 1 ≤ i → m ∈ localMaximaGo x iMax fuel i →
      ∃ l r, 1 ≤ l ∧ l ≤ r ∧ r + 1 ≤ iMax ∧ m = (l + r) / 2 ∧
        x (l - 1) < x l ∧ x (r + 1) < x l ∧ ∀ k, l ≤ k → k ≤ r → x k = x l
  | 0, i, m, _, hm => absurd hm (by simp [localMaximaGo])
  | fuel + 1, i, m, hi, hm => by
    simp only [localMaximaGo] at hm
    by_cases h1 : i < iMax
    · rw [if_pos h1] at hm
      by_cases h2 : x (i - 1) < x i
      · rw [if_pos h2] at hm
        by_cases h3 : x (plateauEnd x iMax (x i) iMax (i + 1)) < x i
        · rw [if_pos h3] at hm
          have hge := plateauEnd_ge x iMax (x i) iMax (i + 1)
          have hle := plateauEnd_le x iMax (x i) iMax (i + 1) (by omega)
          rcases List.mem_cons.1 hm with rfl | hm'
          · refine ⟨i, plateauEnd x iMax (x i) iMax (i + 1) - 1, hi, by omega, by omega,
              by omega, h2, ?_, ?_⟩
            · rw [show plateauEnd x iMax (x i) iMax (i + 1) - 1 + 1 =
                plateauEnd x iMax (x i) iMax (i + 1) by omega]
              exact h3
            · intro k hk1 hk2
              by_cases hki : k = i
              · rw [hki]
              · exact (plateauEnd_plateau x iMax (x i) iMax (i + 1) k (by omega)
                  (by omega)).2
          · exact localMaximaGo_char x iMax fuel _ m (by omega) hm'
        · rw [if_neg h3] at hm
          exact localMaximaGo_char x iMax fuel (i + 1) m (by omega) hm
      · rw [if_neg h2] at hm
        exact localMaximaGo_char x iMax fuel (i + 1) m (by omega) hm
    · rw [if_neg h1] at hm
      exact absurd hm (by simp)

theorem localMaxima_sorted (x : ℕ → ℚ) (n : ℕ) : (localMaxima x n).Sorted (· < ·) :=
  localMaximaGo_sorted x (n - 1) n 1

theorem localMaxima_char (x : ℕ → ℚ) (n m : ℕ) (hm : m ∈ localMaxima x n) :
    ∃ l r, 1 ≤ l ∧ l ≤ r ∧ r + 1 ≤ n - 1 ∧ m = (l + r) / 2 ∧
      x (l - 1) < x l ∧ x (r + 1) < x l ∧ ∀ k, l ≤ k → k ≤ r → x k = x l :=
  localMaximaGo_char x (n - 1) n 1 m (le_refl 1) hm

/-- No index is simultaneously a candidate peak of the signal and of its
negation: the two plateaus would have to coincide on the left edge, where the
defining strict inequalities contradict each other. -/
theorem localMaxima_disjoint (x : ℕ → ℚ) (n m : ℕ)
    (h1 : m ∈ localMaxima x n) (h2 : m ∈ localMaxima (fun i => -x i) n) : False := by
  obtain ⟨l, r, hl1, hlr, hr, hm, hll, hrr, hplat⟩ := localMaxima_char x n m h1
  obtain ⟨l', r', hl1', hlr', hr', hm', hll2, hrr2, hplat2⟩ :=
    localMaxima_char (fun i => -x i) n m h2
  have hll' : -x (l' - 1) < -x l' := hll2
  have hplat' : ∀ k, l' ≤ k → k ≤ r' → -x k = -x l' := fun k a b => hplat2 k a b
  have hml : l ≤ m ∧ m ≤ r := by omega
  have hml' : l' ≤ m ∧ m ≤ r' := by omega
  have em : x m = x l := hplat m hml.1 hml.2
  have em' : -x m = -x l' := hplat' m hml'.1 hml'.2
  rcases lt_trichotomy l l' with hc | hc | hc
  · have e1 : x (l' - 1) = x l := hplat (l' - 1) (by omega) (by omega)
    have : x l' = x m := by linarith
    linarith
  · subst hc
    linarith
  · have e1 : -x (l - 1) = -x l' := hplat' (l - 1) (by omega) (by omega)
    have : x l' = x m := by linarith
    linarith

theorem getD_set_false_true :
    ∀ (keep : List Bool) (j t : ℕ),
      (keep.set j false).getD t false = true → keep.getD t false = true ∧ t ≠ j
  | [], j, t, h => by simp at h
  | b :: bs, 0, 0, h => by simp [List.set] at h
  | b :: bs, 0, t + 1, h => ⟨h, by omega⟩
  | b :: bs, j + 1, 0, h => ⟨h, by omega⟩
  | b :: bs, j + 1, t + 1, h => by
    have ih := getD_set_false_true bs j t h
    exact ⟨ih.1, by omega⟩

theorem getD_set_false_false (keep : List Bool) (j t : ℕ)
    (h : keep.getD t false = false) : (keep.set j false).getD t false = false := by
  cases hh : (keep.set j false).getD t false
  · rfl
  · exact absurd (getD_set_false_true keep j t hh).1 (by rw [h]; simp)

theorem set_getD_self_false :
    ∀ (keep : List Bool) (j : ℕ), (keep.set j false).getD j false = false
  | [], _ => by simp
  | _ :: _, 0 => rfl
  | _ :: bs, j + 1 => set_getD_self_false bs j

theorem killLeft_mono (p : List ℕ) (d pj : ℤ) :
    ∀ k keep t, (killLeft p d pj k keep).getD t false = true → keep.getD t false = true
  | 0, keep, t, h => by
    simp only [killLeft] at h
    split at h
    · exact (getD_set_false_true keep 0 t h).1
    · exact h
  | k + 1, keep, t, h => by
    simp only [killLeft] at h
    split at h
    · exact (getD_set_false_true keep (k + 1) t (killLeft_mono p d pj k _ t h)).1
    · exact h

theorem killLeft_false (p : List ℕ) (d pj : ℤ) :
    ∀ k keep t, keep.getD t false = false →
      (killLeft p d pj k keep).getD t false = false
  | 0, keep, t, h => by
    simp only [killLeft]
    split
    · exact getD_set_false_false keep 0 t h
    · exact h
  | k + 1, keep, t, h => by
    simp only [killLeft]
    split
    · exact killLeft_false p d pj k _ t (getD_set_false_false keep (k + 1) t h)
    · exact h

theorem killRight_mono (p : List ℕ) (d pj : ℤ) :
    ∀ fuel k keep t, (killRight p d pj fuel k keep).getD t false = true →
      keep.getD t false = true
  | 0, _, _, _, h => h
  | fuel + 1, k, keep, t, h => by
    simp only [killRight] at h
    split at h
    · exact (getD_set_false_true keep k t (killRight_mono p d pj fuel (k + 1) _ t h)).1
    · exact h

theorem killRight_false (p : List ℕ) (d pj : ℤ) :
    ∀ fuel k keep t, keep.getD t false = false →
      (killRight p d pj fuel k keep).getD t false = false
  | 0, _, _, _, h => h
  | fuel + 1, k, keep, t, h => by
    simp only [killRight]
    split
    · exact killRight_false p d pj fuel (k + 1) _ t (getD_set_false_false keep k t h)
    · exact h

theorem processPeak_mono (p : List ℕ) (d : ℤ) (j : ℕ) (keep : List Bool) (t : ℕ)
    (h : (processPeak p d j keep).getD t false = true) : keep.getD t false = true := by
  unfold processPeak at h
  split at h
  · exact h
  · have h1 := killRight_mono p d _ p.length (j + 1) _ t h
    match j, h1 with
    | 0, h1 => exact h1
    | j' + 1, h1 => exact killLeft_mono p d _ j' keep t h1

theorem processPeak_false (p : List ℕ) (d : ℤ) (j : ℕ) (keep : List Bool) (t : ℕ)
    (h : keep.getD t false = false) : (processPeak p d j keep).getD t false = false := by
  unfold processPeak
  split
  · exact h
  · rcases j with _ | j'
    · exact killRight_false p d _ p.length 1 keep t h
    · show (killRight p d _ p.length (j' + 1 + 1) (killLeft p d _ j' keep)).getD t false
        = false
      exact killRight_false p d _ p.length (j' + 1 + 1) _ t
        (killLeft_false p d _ j' keep t h)

theorem processPrios_mono (p : List ℕ) (d : ℤ) :
    ∀ prios keep t, (processPrios p d prios keep).getD t false = true →
      keep.getD t false = true
  | [], _, _, h => h
  | j :: rest, keep, t, h =>
    processPeak_mono p d j keep t (processPrios_mono p d rest _ t h)

theorem processPrios_false (p : List ℕ) (d : ℤ) :
    ∀ prios keep t, keep.getD t false = false →
      (processPrios p d prios keep).getD t false = false
  | [], _, _, h => h
  | j :: rest, keep, t, h =>
    processPrios_false p d rest _ t (processPeak_false p d j keep t h)

theorem killLeft_kills (p : List ℕ) (d pj : ℤ) :
    ∀ k0 keep t, t ≤ k0 →
      (∀ k, t ≤ k → k ≤ k0 → pj - (p.getD k 0 : ℤ) < d) →
      (killLeft p d pj k0 keep).getD t false = false
  | 0, keep, t, ht, hall => by
    have ht0 : t = 0 := by omega
    subst ht0
    simp only [killLeft]
    rw [if_pos (hall 0 (le_refl 0) (le_refl 0))]
    exact set_getD_self_false keep 0
  | k0 + 1, keep, t, ht, hall => by
    simp only [killLeft]
    rw [if_pos (hall (k0 + 1) (by omega) (le_refl _))]
    by_cases htk : t = k0 + 1
    · subst htk
      exact killLeft_false p d pj k0 _ (k0 + 1) (set_getD_self_false keep (k0 + 1))
    · exact killLeft_kills p d pj k0 _ t (by omega)
        (fun k hk1 hk2 => hall k hk1 (by omega))

theorem killRight_kills (p : List ℕ) (d pj : ℤ) :
    ∀ fuel k0 keep t, k0 ≤ t → t < k0 + fuel → t < p.length →
      (∀ k, k0 ≤ k → k ≤ t → (p.getD k 0 : ℤ) - pj < d) →
      (killRight p d pj fuel k0 keep).getD t false = false
  | 0, k0, _, t, h1, h2, _, _ => by omega
  | fuel + 1, k0, keep, t, h1, h2, h3, hall => by
    simp only [killRight]
    have hc : k0 < p.length ∧ (p.getD k0 0 : ℤ) - pj < d :=
      ⟨by omega, hall k0 (le_refl _) h1⟩
    rw [if_pos hc]
    by_cases htk : t = k0
    · subst htk
      exact killRight_false p d pj fuel (t + 1) _ t (set_getD_self_false keep t)

    · exact killRight_kills p d pj fuel (k0 + 1) _ t (by omega) (by omega) h3
        (fun k hk1 hk2 => hall k (by omega) hk2)

theorem processPeak_kills (p : List ℕ) (d : ℤ)
    (hmono : ∀ u v, u ≤ v → v < p.length → p.getD u 0 ≤ p.getD v 0)
    (j t : ℕ) (keep : List Bool) (hj : j < p.length) (ht : t < p.length) (hne : t ≠ j)
    (hd : |(p.getD j 0 : ℤ) - p.getD t 0| < d)
    (hkj : keep.getD j false = true) :
    (processPeak p d j keep).getD t false = false := by
  unfold processPeak
  rw [if_neg (by rw [hkj]; simp)]
  rcases lt_or_gt_of_ne hne with hlt | hgt
  · -- t < j : the left walk reaches and clears t, the right walk preserves it
    obtain ⟨j', rfl⟩ : ∃ j', j = j' + 1 := ⟨j - 1, by omega⟩
    show (killRight p d _ p.length (j' + 1 + 1) (killLeft p d _ j' keep)).getD t false
      = false
    apply killRight_false
    apply killLeft_kills p d _ j' keep t (by omega)
    intro k hk1 hk2
    have h1 : p.getD t 0 ≤ p.getD k 0 := hmono t k hk1 (by omega)
    have h2 : p.getD t 0 ≤ p.getD (j' + 1) 0 := hmono t (j' + 1) (by omega) hj
    rw [abs_of_nonneg (by omega)] at hd
    omega
  · -- t > j : the right walk reaches and clears t
    apply killRight_kills p d _ p.length (j + 1) _ t (by omega) (by omega) ht
    intro k hk1 hk2
    have h1 : p.getD k 0 ≤ p.getD t 0 := hmono k t hk2 ht
    have h2 : p.getD j 0 ≤ p.getD t 0 := hmono j t (by omega) ht
    rw [abs_of_nonpos (by omega)] at hd
    omega

theorem processPrios_kills (p : List ℕ) (d : ℤ)
    (hmono : ∀ u v, u ≤ v → v < p.length → p.getD u 0 ≤ p.getD v 0) :
    ∀ prios keep j t, j ∈ prios → j < p.length → t < p.length → t ≠ j →
      |(p.getD j 0 : ℤ) - p.getD t 0| < d →
      (processPrios p d prios keep).getD j false = true →
      (processPrios p d prios keep).getD t false = false
  | [], _, _, _, hmem, _, _, _, _, _ => absurd hmem (by simp)
  | j₀ :: rest, keep, j, t, hmem, hj, ht, hne, hd, hkeep => by
    simp only [processPrios] at hkeep ⊢
    by_cases hjj : j = j₀
    · subst hjj
      have hkj : keep.getD j false = true := by
        cases hb : keep.getD j false
        · have h1 := processPrios_mono p d rest _ j hkeep
          unfold processPeak at h1
          rw [if_pos hb] at h1
          rw [h1] at hb
          exact absurd hb (by simp)
        · rfl
      exact processPrios_false p d rest _ t
        (processPeak_kills p d hmono j t keep hj ht hne hd hkj)
    · have hmem' : j ∈ rest := by
        rcases List.mem_cons.1 hmem with h | h
        · exact absurd h hjj
        · exact h
      exact processPrios_kills p d hmono rest _ j t hmem' hj ht hne hd hkeep

/-- Any two positions both kept by `selectByPeakDistance` are at least `d`
apart (in peak positions), provided the position list is non-decreasing. -/
theorem select_separation (p : List ℕ) (heights : List ℚ) (d : ℤ)
    (hmono : ∀ u v, u ≤ v → v < p.length → p.getD u 0 ≤ p.getD v 0)
    (j t : ℕ) (hj : j < p.length) (ht : t < p.length) (hne : t ≠ j)
    (hkj : (selectByPeakDistance p heights d).getD j false = true)
    (hkt : (selectByPeakDistance p heights d).getD t false = true) :
    d ≤ |(p.getD j 0 : ℤ) - p.getD t 0| := by
  by_contra hd
  push_neg at hd
  unfold selectByPeakDistance at hkj hkt
  have hjmem : j ∈ (List.insertionSort
      (fun a b => heights.getD a 0 ≤ heights.getD b 0) (List.range p.length)).reverse := by
    rw [List.mem_reverse]
    exact ((List.perm_insertionSort _ _).mem_iff).2 (List.mem_range.2 hj)
  have := processPrios_kills p d hmono _ _ j t hjmem hj ht hne hd hkj
  rw [this] at hkt
  exact absurd hkt (by simp)

theorem maskFilter_sublist {α : Type} :
    ∀ (l : List α) (m : List Bool), List.Sublist (maskFilter l m) l
  | [], _ => by simp [maskFilter]
  | _ :: _, [] => by simp [maskFilter]
  | a :: l, b :: m => by
    simp only [maskFilter]
    split
    · exact (maskFilter_sublist l m).cons₂ a
    · exact (maskFilter_sublist l m).cons a

theorem mem_maskFilter : ∀ (l : List ℕ) (mask : List Bool) (a : ℕ),
    a ∈ maskFilter l mask →
      ∃ k, k < l.length ∧ mask.getD k false = true ∧ l.getD k 0 = a
  | [], mask, a, h => absurd h (by simp [maskFilter])
  | x :: xs, [], a, h => absurd h (by simp [maskFilter])
  | x :: xs, b :: bs, a, h => by
    simp only [maskFilter] at h
    split at h
    next hb =>
      rcases List.mem_cons.1 h with rfl | h'
      · exact ⟨0, by simp, hb, rfl⟩
      · obtain ⟨k, hk, hm, hv⟩ := mem_maskFilter xs bs a h'
        exact ⟨k + 1, by simp only [List.length_cons]; omega, hm, hv⟩
    next hb =>
      obtain ⟨k, hk, hm, hv⟩ := mem_maskFilter xs bs a h
      exact ⟨k + 1, by simp only [List.length_cons]; omega, hm, hv⟩

theorem maskFilter_pairwise (R : ℕ → ℕ → Prop) :
    ∀ (l : List ℕ) (mask : List Bool),
      (∀ u v, u < v → v < l.length → mask.getD u false = true →
        mask.getD v false = true → R (l.getD u 0) (l.getD v 0)) →
      List.Pairwise R (maskFilter l mask)
  | [], mask, _ => by simp [maskFilter]
  | x :: xs, [], _ => by simp [maskFilter]
  | x :: xs, b :: bs, h => by
    simp only [maskFilter]
    split
    next hb =>
      refine List.pairwise_cons.2 ⟨?_, ?_⟩
      · intro a ha
        obtain ⟨k, hk, hm, hv⟩ := mem_maskFilter xs bs a ha
        have hr := h 0 (k + 1) (by omega) (by simp only [List.length_cons]; omega) hb hm
        exact hv ▸ hr
      · apply maskFilter_pairwise R xs bs
        intro u v huv hvl hu' hv'
        exact h (u + 1) (v + 1) (by omega) (by simp only [List.length_cons]; omega) hu' hv'
    next hb =>
      apply maskFilter_pairwise R xs bs
      intro u v huv hvl hu' hv'
      exact h (u + 1) (v + 1) (by omega) (by simp only [List.length_cons]; omega) hu' hv'

theorem sorted_getD_mono (l : List ℕ) (hs : l.Sorted (· < ·)) (u v : ℕ)
    (huv : u ≤ v) (hv : v < l.length) : l.getD u 0 ≤ l.getD v 0 := by
  rcases eq_or_lt_of_le huv with rfl | hlt
  · exact le_refl _
  · rw [List.getD_eq_getElem l _ (by omega), List.getD_eq_getElem l _ hv]
    exact le_of_lt (List.pairwise_iff_getElem.1 hs u v (by omega) hv hlt)

theorem find_peaks_sorted (x : ℕ → ℚ) (n : ℕ) (prom dist : ℚ) :
    (find_peaks x n prom dist).Sorted (· < ·) := by
  unfold find_peaks
  exact ((localMaxima_sorted x n).sublist
    ((maskFilter_sublist _ _).trans (maskFilter_sublist _ _)))

theorem find_peaks_subset (x : ℕ → ℚ) (n : ℕ) (prom dist : ℚ) (a : ℕ)
    (h : a ∈ find_peaks x n prom dist) : a ∈ localMaxima x n := by
  unfold find_peaks at h
  exact ((maskFilter_sublist _ _).trans (maskFilter_sublist _ _)).subset h

/-- Same-kind separation: any two distinct peaks returned by `find_peaks` are
at least `distance` apart. -/
theorem find_peaks_pairwise (x : ℕ → ℚ) (n : ℕ) (prom dist : ℚ) :
    List.Pairwise (fun a b : ℕ => dist ≤ |(a : ℚ) - (b : ℚ)|)
      (find_peaks x n prom dist) := by
  unfold find_peaks
  apply List.Pairwise.sublist (maskFilter_sublist _ _)
  apply maskFilter_pairwise
  intro u v huv hvl hu hv
  have hmono := sorted_getD_mono (localMaxima x n) (localMaxima_sorted x n)
  have hsep := select_separation (localMaxima x n) ((localMaxima x n).map x)
    ⌈dist⌉ hmono v u hvl (by omega) (by omega) hv hu
  have h1 : (dist : ℚ) ≤ (⌈dist⌉ : ℚ) := Int.le_ceil dist
  have h2 : ((⌈dist⌉ : ℤ) : ℚ) ≤
      ((|((localMaxima x n).getD v 0 : ℤ) - ((localMaxima x n).getD u 0 : ℤ)| : ℤ) : ℚ) := by
    exact_mod_cast hsep
  calc dist ≤ ((⌈dist⌉ : ℤ) : ℚ) := h1
    _ ≤ ((|((localMaxima x n).getD v 0 : ℤ) - ((localMaxima x n).getD u 0 : ℤ)| : ℤ) : ℚ) := h2
    _ = |((localMaxima x n).getD u 0 : ℚ) - ((localMaxima x n).getD v 0 : ℚ)| := by
        push_cast
        rw [abs_sub_comm]

/-- The turning-point index array is strictly increasing: the sorted merge of
the peak and valley index sets, which are individually strictly sorted and
mutually disjoint. -/
theorem find_turning_points_sorted (x : ℕ → ℚ) (n : ℕ) (prom dist : ℚ) :
    (find_turning_points x n prom dist).Sorted (· < ·) := by
  unfold find_turning_points
  have hnd : (find_peaks x n prom dist ++
      find_peaks (fun i => -x i) n prom dist).Nodup := by
    rw [List.nodup_append]
    refine ⟨(find_peaks_sorted x n prom dist).nodup,
      (find_peaks_sorted (fun i => -x i) n prom dist).nodup, ?_⟩
    intro a ha hb
    exact localMaxima_disjoint x n a (find_peaks_subset x n prom dist a ha)
      (find_peaks_subset (fun i => -x i) n prom dist a hb)
  have hsorted : (sortNat (find_peaks x n prom dist ++
      find_peaks (fun i => -x i) n prom dist)).Sorted (· ≤ ·) :=
    List.sorted_insertionSort (· ≤ ·) _
  have hnd2 : (sortNat (find_peaks x n prom dist ++
      find_peaks (fun i => -x i) n prom dist)).Nodup :=
    ((List.perm_insertionSort (· ≤ ·) _).nodup_iff).2 hnd
  exact (hsorted.and hnd2).imp (fun h => lt_of_le_of_ne h.1 h.2)

/-- C9: for every input, the turning-point index array is strictly increasing
and any two returned extrema of the same kind (peaks among themselves, valleys
among themselves) are at least `distance` indices apart; a peak and a valley
are not distance-constrained against each other, as witnessed by the concrete
signal `tinyF`, whose returned peak 10 and valley 20 are 10 < 150 apart. -/
theorem C9_turning_point_invariants :
    (∀ (x : ℕ → ℚ) (n : ℕ) (prom dist : ℚ),
      (find_turning_points x n prom dist).Sorted (· < ·) ∧
      List.Pairwise (fun a b : ℕ => dist ≤ |(a : ℚ) - (b : ℚ)|)
        (find_peaks x n prom dist) ∧
      List.Pairwise (fun a b : ℕ => dist ≤ |(a : ℚ) - (b : ℚ)|)
        (find_peaks (fun i => -x i) n prom dist)) ∧
    (10 ∈ find_turning_points tinyF 31 0.1 150 ∧
      20 ∈ find_turning_points tinyF 31 0.1 150 ∧ ((20 : ℚ) - 10 < 150)) := by
  constructor
  · intro x n prom dist
    exact ⟨find_turning_points_sorted x n prom dist,
      find_peaks_pairwise x n prom dist,
      find_peaks_pairwise (fun i => -x i) n prom dist⟩
  · refine ⟨?_, ?_, by norm_num⟩
    · decide!
    · decide!
